import Mathlib

/-!
Verification of the quickfeed assignment-synchronization subsystem.

Shallow embedding of:
- the assignment parser (`ParseAssignments`, Go package `web`, file
  `src/unnamed/part_002` lines 162-231),
- the web service layer (`src/web/assignments.go`: `getAssignments`,
  `updateAssignments`, `loadCriteria`, `createReview`,
  `removeOldCriteriaAndReviews`),
- the service facade error mapping (`src/web/autograder_service.go`),
- the GitLab SCM client request construction (`src/unnamed/part_002`,
  `GitlabSCM.CreateDirectory` and `getVisibilityLevel`).

Database-layer operations (GormDB) are not part of the provided sources;
those are modelled from the specification and are marked with doc comments
starting with `Modelled from the spec:`.
-/

namespace Quickfeed

/-! ## Assignment parser (Go `ParseAssignments`) -/

namespace Parse

/-- Parsed deadline value: the fields produced by Go `time.Parse` with the
fixed layout string of two-digit day, two-digit month, four-digit year,
hour and two-digit minute (day-month-year hour:minute). -/
structure DateTime where
  year : Nat
  month : Nat
  day : Nat
  hour : Nat
  minute : Nat
deriving Repr, DecidableEq

/-- Value of a decimal digit character, `none` for a non-digit
(Go `time` package helper `isDigit` plus the digit arithmetic). -/
def digitVal (c : Char) : Option Nat :=
  if c.isDigit then some (c.toNat - 48) else none

/-- Go `time` package `getnum` with `fixed = true`: consume exactly two
digits (used for the layout elements with a leading zero: day "02",
month "01", minute "04"). -/
def getnum2 : List Char → Option (Nat × List Char)
  | c1 :: c2 :: rest => do
    let d1 ← digitVal c1
    let d2 ← digitVal c2
    some (d1 * 10 + d2, rest)
  | _ => none

/-- Go `time` package `getnum` with `fixed = false`: consume one digit, or
two when the second character is also a digit (layout element "15", hour). -/
def getnumFlex : List Char → Option (Nat × List Char)
  | [] => none
  | [c1] => do
    let d1 ← digitVal c1
    some (d1, ([] : List Char))
  | c1 :: c2 :: rest => do
    let d1 ← digitVal c1
    match digitVal c2 with
    | some d2 => some (d1 * 10 + d2, rest)
    | none => some (d1, c2 :: rest)

/-- Go `time` package four-digit year (layout element "2006"): consume
exactly four digits. -/
def getnum4 : List Char → Option (Nat × List Char)
  | c1 :: c2 :: c3 :: c4 :: rest => do
    let d1 ← digitVal c1
    let d2 ← digitVal c2
    let d3 ← digitVal c3
    let d4 ← digitVal c4
    some (((d1 * 10 + d2) * 10 + d3) * 10 + d4, rest)
  | _ => none

/-- Consume one expected literal layout character (the separators
'-', ' ' and ':' of the layout). -/
def expectChar (c : Char) : List Char → Option (List Char)
  | c' :: rest => if c' = c then some rest else none
  | [] => none

/-- Leap-year rule used by Go `time.daysIn`. -/
def isLeapYear (y : Nat) : Bool :=
  y % 4 == 0 && (y % 100 != 0 || y % 400 == 0)

/-- Number of days in a month (Go `time.daysIn`). -/
def daysIn (month year : Nat) : Nat :=
  if month = 2 then (if isLeapYear year then 29 else 28)
  else if month = 4 ∨ month = 6 ∨ month = 9 ∨ month = 11 then 30
  else 31

/-- Embedding of `time.Parse("02-01-2006 15:04", s)` from
`ParseAssignments`: fixed-width day-month-year hour:minute, with Go's
range checks (hour below 24, minute below 60, month 1..12, day within the
month) and Go's "extra text" check that the whole input is consumed.
Returns `none` exactly when Go's `time.Parse` returns an error. -/
def parseDeadline (s : String) : Option DateTime := do
  let (day, r1) ← getnum2 s.toList
  let r2 ← expectChar '-' r1
  let (month, r3) ← getnum2 r2
  let r4 ← expectChar '-' r3
  let (year, r5) ← getnum4 r4
  let r6 ← expectChar ' ' r5
  let (hour, r7) ← getnumFlex r6
  let r8 ← expectChar ':' r7
  let (minute, r9) ← getnum2 r8
  guard (r9 = [])
  guard (hour < 24)
  guard (minute < 60)
  guard (1 ≤ month ∧ month ≤ 12)
  guard (1 ≤ day ∧ day ≤ daysIn month year)
  pure ⟨year, month, day, hour, minute⟩

/-- Go struct `assignmentData`: the yaml fields of one
`assignment.yml` descriptor. -/
structure AssignmentData where
  assignmentid : Nat
  name : String
  language : String
  deadline : String
  autoapprove : Bool
  isGroupLab : Bool
deriving Repr, DecidableEq

/-- Go struct `pb.Assignment` as built by `ParseAssignments`
(fields ID, Course_ID, Deadline, Language, Name, Order, AutoApprove,
IsGroupLab). -/
structure Assignment where
  id : Nat
  courseID : Nat
  deadline : DateTime
  language : String
  name : String
  order : Nat
  autoApprove : Bool
  isGroupLab : Bool
deriving Repr, DecidableEq

/-- Modulus of Go's `uint64` conversion: 2 to the power 64. -/
def uint64Mod : Nat := 18446744073709551616

/-- Modulus of Go's `uint32` conversion: 2 to the power 32. -/
def uint32Mod : Nat := 4294967296

/-- Embedding of Go `strings.ToLower` (character-wise lower-casing; the
embedding covers the ASCII range of the case fold). -/
def toLowerString (s : String) : String := ⟨s.data.map Char.toLower⟩

/-- Assignment record built for one parsed descriptor, exactly as in the
source: `ID = uint64(assignmentid)`, `Order = uint32(assignmentid)`
(64-bit `uint` truncated to 32 bits), `Language = strings.ToLower(...)`. -/
def mkAssignment (courseID : Nat) (d : AssignmentData) (dt : DateTime) : Assignment :=
  { id := d.assignmentid % uint64Mod
    courseID := courseID
    deadline := dt
    language := toLowerString d.language
    name := d.name
    order := d.assignmentid % uint32Mod
    autoApprove := d.autoapprove
    isGroupLab := d.isGroupLab }

/-- One regular file met by the `filepath.Walk` traversal, identified by
its base name. `data` is `some d` when `ioutil.ReadFile` plus
`yaml.Unmarshal` succeed with fields `d`, and `none` when reading or yaml
decoding fails. A directory tree is embedded as the sequence of its
regular files in walk (lexical depth-first) order; directory entries
themselves are skipped by the `!info.IsDir()` guard in the source. -/
structure WalkFile where
  base : String
  data : Option AssignmentData
deriving Repr, DecidableEq

/-- The fixed descriptor file name (Go constant `target`). -/
def target : String := "assignment.yml"

/-- Errors of the parse pipeline. `notFound` is the `os.IsNotExist` error
from the `os.Stat` check; the walk errors are the first error returned
from the walk callback (file read / yaml decode, `time.Parse` failure, or
`tspb.TimestampProto` failure for dates before year 1). -/
inductive WalkError where
  | notFound
  | yamlError
  | deadlineError
  | timestampError
deriving Repr, DecidableEq

/-- The `filepath.Walk` callback folded over the files in walk order:
a file whose base name is `assignment.yml` is decoded and parsed; the
first failing file aborts the whole walk with its error; parsed
assignments are appended in walk order. `TimestampProto` fails exactly
for a parsed year 0 (a time before 0001-01-01). -/
def walkFiles (courseID : Nat) : List WalkFile → Except WalkError (List Assignment)
  | [] => .ok []
  | f :: fs =>
    if f.base = target then
      match f.data with
      | none => .error .yamlError
      | some d =>
        match parseDeadline d.deadline with
        | none => .error .deadlineError
        | some dt =>
          if dt.year = 0 then .error .timestampError
          else
            match walkFiles courseID fs with
            | .error e => .error e
            | .ok rest => .ok (mkAssignment courseID d dt :: rest)
    else walkFiles courseID fs

/-- Embedding of Go `ParseAssignments(dir, courseID)`. The file system is
a finite map from existing root directories to their regular files in
walk order; `os.Stat` failing with not-exist is the failed lookup, hit
before any traversal. -/
def ParseAssignments (fs : List (String × List WalkFile)) (dir : String)
    (courseID : Nat) : Except WalkError (List Assignment) :=
  match fs.lookup dir with
  | none => .error .notFound
  | some files => walkFiles courseID files

/-- Predicate of claim C3: some descriptor file in the tree has a deadline
string rejected by `time.Parse`. -/
def hasBadDeadline (files : List WalkFile) : Bool :=
  files.any fun f =>
    f.base == target &&
      (match f.data with
       | some d => (parseDeadline d.deadline).isNone
       | none => false)

/-- Descriptor contents found by the walk (the yaml-decodable files named
`assignment.yml`, in walk order). -/
def descriptorsOf (files : List WalkFile) : List AssignmentData :=
  files.filterMap fun f => if f.base == target then f.data else none

/-- Count of descriptor files (files named `assignment.yml`) in the tree. -/
def descriptorFileCount (files : List WalkFile) : Nat :=
  (files.filter fun f => f.base == target).length

/-- Field-wise relation between a descriptor and the Assignment built
from it (claim C4, with the uint32 truncation of `Order` made explicit). -/
def BuiltFrom (cid : Nat) (d : AssignmentData) (a : Assignment) : Prop :=
  a.id = d.assignmentid % uint64Mod ∧
  a.order = d.assignmentid % uint32Mod ∧
  a.language = toLowerString d.language ∧
  a.name = d.name ∧
  a.courseID = cid ∧
  a.autoApprove = d.autoapprove ∧
  a.isGroupLab = d.isGroupLab

/-- Walk-level form of claim C3: a descriptor with an unparseable deadline
anywhere in the file sequence makes the whole walk fail. -/
theorem walkFiles_error_of_hasBadDeadline (cid : Nat) (files : List WalkFile)
    (hbad : hasBadDeadline files = true) :
    ∃ e, walkFiles cid files = .error e := by
  induction files with
  | nil => simp [hasBadDeadline] at hbad
  | cons f fs ih =>
    rw [hasBadDeadline, List.any_cons] at hbad
    by_cases ht : f.base = target
    · cases hd : f.data with
      | none => exact ⟨.yamlError, by simp [walkFiles, ht, hd]⟩
      | some d =>
        cases hp : parseDeadline d.deadline with
        | none => exact ⟨.deadlineError, by simp [walkFiles, ht, hd, hp]⟩
        | some dt =>
          have hrest : hasBadDeadline fs = true := by
            simp only [hd, hp, Option.isNone_some, Bool.and_false,
              Bool.false_or] at hbad
            exact hbad
          obtain ⟨e, he⟩ := ih hrest
          by_cases hy : dt.year = 0
          · exact ⟨.timestampError, by simp [walkFiles, ht, hd, hp, hy]⟩
          · exact ⟨e, by simp [walkFiles, ht, hd, hp, hy, he]⟩
    · have hne : (f.base == target) = false := by
        simpa using ht
      simp only [hne, Bool.false_and, Bool.false_or] at hbad
      obtain ⟨e, he⟩ := ih hbad
      exact ⟨e, by simp [walkFiles, ht, he]⟩

/-- Walk-level form of claim C4 (amended): a successful walk returns one
Assignment per descriptor file, field-wise built from the descriptors in
order, with `Order` the uint32 truncation of the descriptor id. -/
theorem walkFiles_ok_shape (cid : Nat) (files : List WalkFile)
    (l : List Assignment) (hok : walkFiles cid files = .ok l) :
    l.length = descriptorFileCount files ∧
    List.Forall₂ (BuiltFrom cid) (descriptorsOf files) l := by
  induction files generalizing l with
  | nil =>
    rw [walkFiles] at hok
    cases hok
    exact ⟨rfl, List.Forall₂.nil⟩
  | cons f fs ih =>
    by_cases ht : f.base = target
    · have htb : (f.base == target) = true := by simpa using ht
      cases hd : f.data with
      | none => simp [walkFiles, ht, hd] at hok
      | some d =>
        cases hp : parseDeadline d.deadline with
        | none => simp [walkFiles, ht, hd, hp] at hok
        | some dt =>
          by_cases hy : dt.year = 0
          · simp [walkFiles, ht, hd, hp, hy] at hok
          · cases hr : walkFiles cid fs with
            | error e => simp [walkFiles, ht, hd, hp, hy, hr] at hok
            | ok rest =>
              have hl : l = mkAssignment cid d dt :: rest := by
                have := hok
                simp only [walkFiles, if_pos ht, hd, hp, if_neg hy, hr] at this
                cases this
                rfl
              obtain ⟨hlen, hrel⟩ := ih rest hr
              subst hl
              constructor
              · simp [descriptorFileCount, List.filter_cons, htb] at hlen ⊢
                exact hlen
              · have hds : descriptorsOf (f :: fs) = d :: descriptorsOf fs := by
                  simp [descriptorsOf, List.filterMap_cons, ht, htb, hd]
                rw [hds]
                exact List.Forall₂.cons
                  ⟨rfl, rfl, rfl, rfl, rfl, rfl, rfl⟩ hrel
    · have htb : (f.base == target) = false := by simpa using ht
      rw [walkFiles, if_neg ht] at hok
      obtain ⟨hlen, hrel⟩ := ih l hok
      constructor
      · simpa [descriptorFileCount, List.filter_cons, htb] using hlen
      · simpa [descriptorsOf, List.filterMap_cons, ht, htb] using hrel

/-- C3: if any `assignment.yml` descriptor in the walked tree has a
deadline string rejected by the fixed-format parse, `ParseAssignments`
returns an error and no assignment list, no matter how many other
descriptors are well formed. -/
theorem parseAssignments_error_of_bad_deadline
    (fs : List (String × List WalkFile)) (dir : String) (cid : Nat)
    (files : List WalkFile)
    (hlook : fs.lookup dir = some files)
    (hbad : hasBadDeadline files = true) :
    ∃ e, ParseAssignments fs dir cid = .error e := by
  obtain ⟨e, he⟩ := walkFiles_error_of_hasBadDeadline cid files hbad
  refine ⟨e, ?_⟩
  rw [ParseAssignments, hlook]
  exact he

/-- Tree for the C3 witness: one well-formed descriptor followed by one
whose deadline "2024-09-01 23:59" is in year-first order and is rejected
by the day-month-year layout. -/
def c3Files : List WalkFile :=
  [⟨"assignment.yml", some ⟨1, "Lab 1", "go", "01-09-2024 23:59", true, false⟩⟩,
   ⟨"assignment.yml", some ⟨2, "Lab 2", "go", "2024-09-01 23:59", true, false⟩⟩]

/-- Witness for C3 at a concrete tree. -/
theorem parseAssignments_error_of_bad_deadline_witness :
    [("tests", c3Files)].lookup "tests" = some c3Files ∧
    hasBadDeadline c3Files = true ∧
    ∃ e, ParseAssignments [("tests", c3Files)] "tests" 1 = .error e :=
  ⟨rfl, rfl,
    parseAssignments_error_of_bad_deadline [("tests", c3Files)] "tests" 1
      c3Files rfl rfl⟩

/-- Descriptor whose assignment id 4294967296 = 2^32 exhibits the uint32
truncation of `Order` in the source (`Order: uint32(newAssignment.AssignmentID)`
against `ID: uint64(newAssignment.AssignmentID)`). -/
def c4TruncFiles : List WalkFile :=
  [⟨"assignment.yml", some ⟨4294967296, "Lab X", "go", "01-09-2024 23:59", false, false⟩⟩]

/-- C4 counterexample: on a valid tree whose single descriptor has
assignment id 2^32, the returned Assignment has `Order = 0`, not the
descriptor's numeric assignment id — `Order` is the id truncated to
32 bits, so the claim as stated fails. -/
theorem parseAssignments_order_not_id :
    ParseAssignments [("tests", c4TruncFiles)] "tests" 7
      = .ok [⟨4294967296, 7, ⟨2024, 9, 1, 23, 59⟩, "go", "Lab X", 0, false, false⟩] ∧
    (0 : Nat) ≠ 4294967296 :=
  ⟨rfl, by decide⟩

/-- C4 (amended): for every existing directory tree whose descriptors are
all valid, `ParseAssignments` returns exactly one Assignment per
descriptor file found, and for each returned Assignment, `Order` equals
the descriptor's numeric assignment id reduced modulo 2^32 (the uint32
truncation; equal to the id whenever it is below 2^32) and `Language`
equals the descriptor's language string case-folded to lowercase. -/
theorem parseAssignments_ok_shape
    (fs : List (String × List WalkFile)) (dir : String) (cid : Nat)
    (files : List WalkFile) (l : List Assignment)
    (hlook : fs.lookup dir = some files)
    (hok : ParseAssignments fs dir cid = .ok l) :
    l.length = descriptorFileCount files ∧
    List.Forall₂ (BuiltFrom cid) (descriptorsOf files) l := by
  rw [ParseAssignments, hlook] at hok
  exact walkFiles_ok_shape cid files l hok

/-- Two valid descriptor files for the C4 witness. -/
def c4Files : List WalkFile :=
  [⟨"README.md", none⟩,
   ⟨"assignment.yml", some ⟨1, "Lab 1", "Go", "01-09-2024 23:59", true, false⟩⟩,
   ⟨"assignment.yml", some ⟨2, "Lab 2", "Python", "15-10-2024 12:00", false, true⟩⟩]

/-- Witness for C4 (amended) at a concrete two-descriptor tree. -/
theorem parseAssignments_ok_shape_witness :
    [("tests", c4Files)].lookup "tests" = some c4Files ∧
    ∃ l, ParseAssignments [("tests", c4Files)] "tests" 3 = .ok l ∧
      (l.length = descriptorFileCount c4Files ∧
       List.Forall₂ (BuiltFrom 3) (descriptorsOf c4Files) l) :=
  ⟨rfl,
   ⟨[⟨1, 3, ⟨2024, 9, 1, 23, 59⟩, "go", "Lab 1", 1, true, false⟩,
     ⟨2, 3, ⟨2024, 10, 15, 12, 0⟩, "python", "Lab 2", 2, false, true⟩],
    rfl,
    parseAssignments_ok_shape [("tests", c4Files)] "tests" 3 c4Files _
      rfl rfl⟩⟩

/-- Tree of the spec's end-to-end example: `lab1/assignment.yml` with
assignmentid 1, name "Lab 1", language "go", deadline
"01-09-2024 23:59", autoapprove true, IsGroupLab false. -/
def lab1Files : List WalkFile :=
  [⟨"assignment.yml", some ⟨1, "Lab 1", "go", "01-09-2024 23:59", true, false⟩⟩]

/-- C5: the spec's end-to-end example parses to the single Assignment
with ID 1, Name "Lab 1", Language "go", AutoApprove true, IsGroupLab
false, Order 1 and Deadline 2024-09-01T23:59:00 (the deadline string read
with the day-month-year hour:minute layout). -/
theorem parseAssignments_lab1_example :
    ParseAssignments [("tests", lab1Files)] "tests" 1
      = .ok [⟨1, 1, ⟨2024, 9, 1, 23, 59⟩, "go", "Lab 1", 1, true, false⟩] :=
  rfl

/-- C6: for every root directory that does not exist, `ParseAssignments`
fails with the NotFound-class error of the `os.Stat` check, before any
traversal, returning no assignments. -/
theorem parseAssignments_notFound_of_missing_root
    (fs : List (String × List WalkFile)) (dir : String) (cid : Nat)
    (hmiss : fs.lookup dir = none) :
    ParseAssignments fs dir cid = .error .notFound := by
  rw [ParseAssignments, hmiss]

/-- Witness for C6: an empty file system has no "tests" root. -/
theorem parseAssignments_notFound_of_missing_root_witness :
    ([] : List (String × List WalkFile)).lookup "tests" = none ∧
    ParseAssignments [] "tests" 1 = .error .notFound :=
  ⟨rfl, parseAssignments_notFound_of_missing_root [] "tests" 1 rfl⟩

end Parse

/-! ## Web service layer (`src/web/assignments.go`) -/

namespace Web

/-- Go struct `pb.Course` (the fields the embedded operations read). -/
structure Course where
  id : Nat
  organizationPath : String
deriving Repr, DecidableEq

/-- Go struct `pb.Assignment` as stored by the web layer (quickfeed
generation: `Deadline` is a string; `ID` is the assignment-local numeric
id, per spec §3 not database-auto-generated). `reviewers` is the
per-assignment review cap read by `createReview`. -/
structure Assignment where
  id : Nat
  courseID : Nat
  name : String
  language : String
  deadline : String
  order : Nat
  autoApprove : Bool
  isGroupLab : Bool
  reviewers : Nat
deriving Repr, DecidableEq

/-- Go struct `pb.GradingCriterion`. -/
structure GradingCriterion where
  id : Nat
  benchmarkID : Nat
  description : String
deriving Repr, DecidableEq

/-- Go struct `pb.GradingBenchmark`; `criteria` is the nested list carried
by the protobuf message (populated on fetch, carried by the json-decoded
rubric; the stored row itself keeps it empty). -/
structure GradingBenchmark where
  id : Nat
  assignmentID : Nat
  heading : String
  criteria : List GradingCriterion
deriving Repr, DecidableEq

/-- Go struct `pb.Submission` (the fields read here). -/
structure Submission where
  id : Nat
  assignmentID : Nat
deriving Repr, DecidableEq

/-- Go struct `pb.Review` (the fields read here). -/
structure Review where
  id : Nat
  submissionID : Nat
  edited : String
deriving Repr, DecidableEq

/-- Relational store behind `GormDB`: one list per table, plus the
auto-increment counters for the rows the embedded operations create. -/
structure DB where
  courses : List Course
  assignments : List Assignment
  benchmarks : List GradingBenchmark
  criteria : List GradingCriterion
  submissions : List Submission
  reviews : List Review
  nextBenchmarkID : Nat
  nextCriterionID : Nat
  nextReviewID : Nat
deriving Repr, DecidableEq

/-- Auto-increment well-formedness: every persisted id sits below its
table's counter (true of any store built by the create operations). -/
def WF (db : DB) : Prop :=
  (∀ b ∈ db.benchmarks, b.id < db.nextBenchmarkID) ∧
  (∀ c ∈ db.criteria, c.id < db.nextCriterionID) ∧
  (∀ c ∈ db.criteria, c.benchmarkID < db.nextBenchmarkID)

/-- Modelled from the spec: `GormDB.GetCourse` — resolve the Course
record by id (spec §4.3 "resolve the Course record for courseID"). -/
def getCourse (db : DB) (courseID : Nat) : Option Course :=
  db.courses.find? fun c => c.id == courseID

/-- Modelled from the spec: `GormDB.GetAssignment` on a query carrying
`ID` and `CourseID` (as built by `loadCriteria`) — the stored assignment
matching both. -/
def getAssignmentQ (db : DB) (assignmentID courseID : Nat) : Option Assignment :=
  db.assignments.find? fun a => a.id == assignmentID && a.courseID == courseID

/-- Modelled from the spec: `GormDB.GetAssignment` on a query carrying
only `ID` (as built by `createReview`). -/
def getAssignmentByID (db : DB) (assignmentID : Nat) : Option Assignment :=
  db.assignments.find? fun a => a.id == assignmentID

/-- Benchmarks persisted for an assignment, with their criteria attached
(the preloaded `GradingBenchmarks` of a fetched assignment).
Modelled from the spec: "nested GradingBenchmarks" of §3. -/
def benchmarksFor (db : DB) (assignmentID : Nat) : List GradingBenchmark :=
  (db.benchmarks.filter fun b => b.assignmentID == assignmentID).map fun b =>
    { b with criteria := db.criteria.filter fun c => c.benchmarkID == b.id }

/-- Modelled from the spec: `GormDB.CreateBenchmark` — insert the
benchmark row under a fresh generated id (§4.3: "benchmark rows must
exist before their criteria can reference a generated BenchmarkID").
Criteria rows live in their own table, so the stored row carries none.
Returns the generated id (gorm writes it back into the message). -/
def createBenchmarkDB (db : DB) (bm : GradingBenchmark) : DB × Nat :=
  ({ db with
      benchmarks := db.benchmarks ++ [{ bm with id := db.nextBenchmarkID, criteria := [] }]
      nextBenchmarkID := db.nextBenchmarkID + 1 },
   db.nextBenchmarkID)

/-- Modelled from the spec: `GormDB.CreateCriterion` — insert the
criterion row under a fresh generated id. -/
def createCriterionDB (db : DB) (c : GradingCriterion) : DB :=
  { db with
      criteria := db.criteria ++ [{ c with id := db.nextCriterionID }]
      nextCriterionID := db.nextCriterionID + 1 }

/-- Modelled from the spec: `GormDB.DeleteCriterion` — delete the
criterion row with the message's id. -/
def deleteCriterionDB (db : DB) (c : GradingCriterion) : DB :=
  { db with criteria := db.criteria.filter fun c' => c'.id != c.id }

/-- Modelled from the spec: `GormDB.DeleteBenchmark` — delete the
benchmark row with the message's id. -/
def deleteBenchmarkDB (db : DB) (bm : GradingBenchmark) : DB :=
  { db with benchmarks := db.benchmarks.filter fun b => b.id != bm.id }

/-- Modelled from the spec: `GormDB.GetSubmissions` on a query carrying
`AssignmentID` — all submissions of that assignment. -/
def getSubmissionsByAssignment (db : DB) (assignmentID : Nat) : List Submission :=
  db.submissions.filter fun s => s.assignmentID == assignmentID

/-- Modelled from the spec: `GormDB.DeleteReview` on a query carrying
`SubmissionID` — remove the reviews attached to that submission
(§3 Review lifecycle: "reviews for that assignment's submissions
removed"). -/
def deleteReviewsBySubmission (db : DB) (submissionID : Nat) : DB :=
  { db with reviews := db.reviews.filter fun r => r.submissionID != submissionID }

/-- Modelled from the spec: `GormDB.GetSubmission` by id, with its
`Reviews` preloaded. -/
def getSubmissionWithReviews (db : DB) (submissionID : Nat) :
    Option (Submission × List Review) :=
  match db.submissions.find? fun s => s.id == submissionID with
  | none => none
  | some s => some (s, db.reviews.filter fun r => r.submissionID == s.id)

/-- Modelled from the spec: `GormDB.CreateReview` — insert the review row
under a fresh generated id. -/
def createReviewDB (db : DB) (r : Review) : DB × Review :=
  let stored := { r with id := db.nextReviewID }
  ({ db with reviews := db.reviews ++ [stored], nextReviewID := db.nextReviewID + 1 },
   stored)

/-- Errors surfaced by the embedded web operations. -/
inductive WebError where
  | notFound
  | fetchOrDecodeError
  | tooManyReviews
deriving Repr, DecidableEq

/-- Embedding of `AutograderService.getAssignments` (assignments.go
lines 18-30): read the course's assignments and rewrite each in-memory
`Deadline` through `assignments.FixDeadline` before returning them.
`FixDeadline` itself is not among the sources, so the normalization is a
parameter `fix`; the single database interaction is the read, so the
store is returned unchanged alongside the response. -/
def getAssignments (fix : String → String) (db : DB) (courseID : Nat) :
    (Except WebError (List Assignment)) × DB :=
  let allAssignments := db.assignments.filter fun a => a.courseID == courseID
  (.ok (allAssignments.map fun a => { a with deadline := fix a.deadline }), db)

/-- Key of the spec §3 uniqueness invariant: (CourseID, AssignmentID). -/
def akey (a : Assignment) : Nat × Nat := (a.courseID, a.id)

/-- Modelled from the spec: one step of `GormDB.UpdateAssignments`
(§4.3) — an assignment matching an existing row by (CourseID,
AssignmentID) updates it in place; an unmatched one is inserted; rows are
never deleted. -/
def upsertAssignment (rows : List Assignment) (a : Assignment) : List Assignment :=
  if rows.any fun r => akey r == akey a then
    rows.map fun r => if akey r == akey a then a else r
  else rows ++ [a]

/-- Modelled from the spec: `GormDB.UpdateAssignments` — upsert the
fetched descriptor list into the assignments table, one by one. -/
def dbUpdateAssignments (rows : List Assignment) (incoming : List Assignment) :
    List Assignment :=
  incoming.foldl upsertAssignment rows

/-- Embedding of `AutograderService.updateAssignments` (assignments.go
lines 33-46): resolve the course, fetch-and-parse the remote descriptor
tree (`assignments.FetchAssignments`, represented by its result:
`some` parsed list for a fixed remote state, `none` for a fetch/parse
failure), then upsert into storage. Every failure leaves the store
untouched. -/
def updateAssignments (db : DB) (courseID : Nat)
    (fetched : Option (List Assignment)) : (Except WebError Unit) × DB :=
  match getCourse db courseID with
  | none => (.error .notFound, db)
  | some _ =>
    match fetched with
    | none => (.error .fetchOrDecodeError, db)
    | some incoming =>
      (.ok (), { db with assignments := dbUpdateAssignments db.assignments incoming })

/-- Embedding of `AutograderService.removeOldCriteriaAndReviews`
(assignments.go lines 157-178): for each benchmark of the fetched
assignment delete its criteria then the benchmark, then delete the
reviews of every submission of the assignment. -/
def removeOldCriteriaAndReviews (db : DB) (assignmentID : Nat)
    (gradingBenchmarks : List GradingBenchmark) : DB :=
  let db1 := gradingBenchmarks.foldl
    (fun db bm => deleteBenchmarkDB (bm.criteria.foldl deleteCriterionDB db) bm) db
  let subs := getSubmissionsByAssignment db1 assignmentID
  subs.foldl (fun db s => deleteReviewsBySubmission db s.id) db1

/-- Criteria insertion loop of `loadCriteria`: each criterion of a parsed
benchmark gets `BenchmarkID` set to the benchmark's generated id and is
created. -/
def insertCriteria : DB → Nat → List GradingCriterion → DB
  | db, _, [] => db
  | db, benchmarkID, c :: cs =>
    insertCriteria (createCriterionDB db { c with benchmarkID := benchmarkID })
      benchmarkID cs

/-- Benchmark insertion loop of `loadCriteria`: each parsed benchmark gets
`AssignmentID` set, is created (gorm writing the generated id back into
the message, the second component of `createBenchmarkDB`), and its
criteria are created under that generated benchmark id. -/
def insertBenchmarks : DB → Nat → List GradingBenchmark → DB
  | db, _, [] => db
  | db, assignmentID, bm :: rest =>
    insertBenchmarks
      (insertCriteria (createBenchmarkDB db { bm with assignmentID := assignmentID }).1
        (createBenchmarkDB db { bm with assignmentID := assignmentID }).2 bm.criteria)
      assignmentID rest

/-- Embedding of `AutograderService.loadCriteria` (assignments.go lines
83-127): resolve the assignment (by ID and CourseID) and its course;
fetch `criteria.json` from the tests repository and json-decode it
(`parsed` is the decoded benchmark list, `none` for a fetch or decode
failure); if the assignment already has persisted benchmarks, remove the
old rubric and the reviews of the assignment's submissions; then insert
the parsed set. The Go return value is the decoded list itself, mutated
in place with the generated ids; the embedding returns the store. -/
def loadCriteria (db : DB) (courseID assignmentID : Nat)
    (parsed : Option (List GradingBenchmark)) : (Except WebError Unit) × DB :=
  match getAssignmentQ db assignmentID courseID with
  | none => (.error .notFound, db)
  | some assignment =>
    match getCourse db assignment.courseID with
    | none => (.error .notFound, db)
    | some _course =>
      match parsed with
      | none => (.error .fetchOrDecodeError, db)
      | some benchmarks =>
        let gradingBenchmarks := benchmarksFor db assignment.id
        let db1 :=
          if gradingBenchmarks.length > 0 then
            removeOldCriteriaAndReviews db assignment.id gradingBenchmarks
          else db
        (.ok (), insertBenchmarks db1 assignment.id benchmarks)

/-- Rubric content of a benchmark, ids erased: its heading and the
descriptions of its criteria in order (the shape the claim compares
across an import). -/
def normBenchmark (bm : GradingBenchmark) : String × List String :=
  (bm.heading, bm.criteria.map fun c => c.description)

/-- Characterization helper: the criterion rows created by the criteria
loop of `loadCriteria` for one benchmark, with the generated ids starting
at `cStart`. -/
def tagCriteria (cStart bmID : Nat) : List GradingCriterion → List GradingCriterion
  | [] => []
  | c :: cs => { c with id := cStart, benchmarkID := bmID } :: tagCriteria (cStart + 1) bmID cs

/-- Characterization helper: the benchmark rows created by the benchmark
loop of `loadCriteria`, with generated ids starting at `bStart`. -/
def tagBenchmarks (bStart aID : Nat) : List GradingBenchmark → List GradingBenchmark
  | [] => []
  | bm :: rest =>
    { bm with id := bStart, assignmentID := aID, criteria := [] }
      :: tagBenchmarks (bStart + 1) aID rest

/-- Characterization helper: all criterion rows created by the benchmark
loop, in order. -/
def tagAllCriteria (cStart bStart : Nat) : List GradingBenchmark → List GradingCriterion
  | [] => []
  | bm :: rest =>
    tagCriteria cStart bStart bm.criteria
      ++ tagAllCriteria (cStart + bm.criteria.length) (bStart + 1) rest

/-- Number of criteria across a parsed benchmark list. -/
def totalCriteria : List GradingBenchmark → Nat
  | [] => 0
  | bm :: rest => bm.criteria.length + totalCriteria rest

/-- Embedding of `AutograderService.createReview` (assignments.go lines
129-147): resolve the submission (with its reviews) and its assignment;
if the submission already carries at least `Reviewers` reviews, fail
without persisting; otherwise stamp `Edited` with the formatted current
time (`now`) and persist the review. -/
def createReview (db : DB) (query : Review) (now : String) :
    (Except WebError Review) × DB :=
  match getSubmissionWithReviews db query.submissionID with
  | none => (.error .notFound, db)
  | some (submission, reviews) =>
    match getAssignmentByID db submission.assignmentID with
    | none => (.error .notFound, db)
    | some assignment =>
      if reviews.length ≥ assignment.reviewers then
        (.error .tooManyReviews, db)
      else
        let p := createReviewDB db { query with edited := now }
        (.ok p.2, p.1)

/-- In-place update step: the rows matching the incoming assignment's key
are overwritten, nothing else moves (the update half of
`upsertAssignment`). -/
def subAssign (a : Assignment) (rows : List Assignment) : List Assignment :=
  rows.map fun r => if akey r == akey a then a else r

/-- Whether some row carries the key `k`. -/
def presentKey (rows : List Assignment) (k : Nat × Nat) : Bool :=
  rows.any fun r => akey r == k

/-- Row agreement away from key `k`: same key, and equal unless the key is
`k` (the rows that one in-place update of key `k` may tell apart). -/
def KeyAgrees (k : Nat × Nat) (r1 r2 : Assignment) : Prop :=
  akey r1 = akey r2 ∧ (akey r1 ≠ k → r1 = r2)

/-- The spec §3 uniqueness invariant: pairwise distinct
(CourseID, AssignmentID) keys. -/
def uniqKeys (rows : List Assignment) : Prop :=
  (rows.map akey).Pairwise (· ≠ ·)

theorem upsertAssignment_eq (rows : List Assignment) (a : Assignment) :
    upsertAssignment rows a =
      if presentKey rows (akey a) then subAssign a rows else rows ++ [a] :=
  rfl

theorem subAssign_map_akey (a : Assignment) (rows : List Assignment) :
    (subAssign a rows).map akey = rows.map akey := by
  induction rows with
  | nil => rfl
  | cons r t ih =>
    simp only [subAssign, List.map_cons] at ih ⊢
    refine congrArg₂ _ ?_ ih
    by_cases h : (akey r == akey a) = true
    · rw [if_pos h]
      exact (eq_of_beq h).symm
    · rw [if_neg h]

theorem presentKey_eq_keys_any (rows : List Assignment) (k : Nat × Nat) :
    presentKey rows k = (rows.map akey).any fun x => x == k := by
  induction rows with
  | nil => rfl
  | cons r t ih =>
    rw [presentKey, List.any_cons, List.map_cons, List.any_cons, ← ih]
    rfl

theorem presentKey_subAssign (a : Assignment) (rows : List Assignment)
    (k : Nat × Nat) : presentKey (subAssign a rows) k = presentKey rows k := by
  rw [presentKey_eq_keys_any, presentKey_eq_keys_any, subAssign_map_akey]

theorem presentKey_upsert_self (rows : List Assignment) (a : Assignment) :
    presentKey (upsertAssignment rows a) (akey a) = true := by
  rw [upsertAssignment_eq]
  by_cases hp : presentKey rows (akey a) = true
  · rw [if_pos hp, presentKey_subAssign]
    exact hp
  · rw [if_neg hp, presentKey, List.any_append]
    simp

theorem presentKey_upsert_mono (rows : List Assignment) (b : Assignment)
    (k : Nat × Nat) (h : presentKey rows k = true) :
    presentKey (upsertAssignment rows b) k = true := by
  rw [upsertAssignment_eq]
  by_cases hb : presentKey rows (akey b) = true
  · rw [if_pos hb, presentKey_subAssign]
    exact h
  · rw [if_neg hb, presentKey, List.any_append]
    rw [presentKey] at h
    simp [h]

theorem presentKey_dbUpdate (rows incoming : List Assignment) (k : Nat × Nat)
    (h : presentKey rows k = true) :
    presentKey (dbUpdateAssignments rows incoming) k = true := by
  induction incoming generalizing rows with
  | nil => exact h
  | cons c t ih =>
    exact ih (upsertAssignment rows c) (presentKey_upsert_mono rows c k h)

theorem presentKey_dbUpdate_of_mem (rows incoming : List Assignment)
    (a : Assignment) (h : a ∈ incoming) :
    presentKey (dbUpdateAssignments rows incoming) (akey a) = true := by
  induction incoming generalizing rows with
  | nil => cases h
  | cons c t ih =>
    rcases List.mem_cons.mp h with hc | ht
    · subst hc
      exact presentKey_dbUpdate (upsertAssignment rows a) t (akey a)
        (presentKey_upsert_self rows a)
    · exact ih (upsertAssignment rows c) ht

theorem upsert_of_present (rows : List Assignment) (a : Assignment)
    (h : presentKey rows (akey a) = true) :
    upsertAssignment rows a = subAssign a rows := by
  rw [upsertAssignment_eq, if_pos h]

theorem subAssign_eq_self (a : Assignment) (rows : List Assignment)
    (h : ∀ r ∈ rows, akey r = akey a → r = a) : subAssign a rows = rows := by
  induction rows with
  | nil => rfl
  | cons r t ih =>
    simp only [subAssign, List.map_cons] at ih ⊢
    refine congrArg₂ _ ?_
      (ih fun x hx hxa => h x (List.mem_cons_of_mem r hx) hxa)
    by_cases hk : (akey r == akey a) = true
    · rw [if_pos hk]
      exact (h r (List.mem_cons_self r t) (eq_of_beq hk)).symm
    · rw [if_neg hk]

theorem alleq_upsert_self (rows : List Assignment) (a : Assignment) :
    ∀ r ∈ upsertAssignment rows a, akey r = akey a → r = a := by
  intro r hr hk
  rw [upsertAssignment_eq] at hr
  by_cases hp : presentKey rows (akey a) = true
  · rw [if_pos hp, subAssign] at hr
    obtain ⟨r0, _, hr0⟩ := List.mem_map.mp hr
    by_cases h0 : (akey r0 == akey a) = true
    · rw [if_pos h0] at hr0
      exact hr0.symm
    · rw [if_neg h0] at hr0
      subst hr0
      exact absurd hk (by simpa using h0)
  · rw [if_neg hp] at hr
    rcases List.mem_append.mp hr with hmem | hone
    · have hfalse : presentKey rows (akey a) = false := by simpa using hp
      rw [presentKey] at hfalse
      have := List.any_eq_false.mp hfalse r hmem
      exact absurd hk (by simpa using this)
    · simpa using hone

theorem alleq_upsert_other (rows : List Assignment) (a b : Assignment)
    (hne : akey b ≠ akey a)
    (h : ∀ r ∈ rows, akey r = akey a → r = a) :
    ∀ r ∈ upsertAssignment rows b, akey r = akey a → r = a := by
  intro r hr hk
  rw [upsertAssignment_eq] at hr
  by_cases hp : presentKey rows (akey b) = true
  · rw [if_pos hp, subAssign] at hr
    obtain ⟨r0, hr0mem, hr0⟩ := List.mem_map.mp hr
    by_cases h0 : (akey r0 == akey b) = true
    · rw [if_pos h0] at hr0
      subst hr0
      exact absurd hk hne
    · rw [if_neg h0] at hr0
      cases hr0
      exact h r hr0mem hk
  · rw [if_neg hp] at hr
    rcases List.mem_append.mp hr with hmem | hone
    · exact h r hmem hk
    · have hrb : r = b := by simpa using hone
      subst hrb
      exact absurd hk hne

theorem alleq_dbUpdate (rows incoming : List Assignment) (a : Assignment)
    (hno : ∀ b ∈ incoming, akey b ≠ akey a)
    (h : ∀ r ∈ rows, akey r = akey a → r = a) :
    ∀ r ∈ dbUpdateAssignments rows incoming, akey r = akey a → r = a := by
  induction incoming generalizing rows with
  | nil => exact h
  | cons c t ih =>
    exact ih (upsertAssignment rows c)
      (fun b hb => hno b (List.mem_cons_of_mem c hb))
      (alleq_upsert_other rows a c (hno c (List.mem_cons_self c t)) h)

theorem keyAgrees_refl (k : Nat × Nat) (r : Assignment) : KeyAgrees k r r :=
  ⟨rfl, fun _ => rfl⟩

theorem eqv_map_akey (k : Nat × Nat) (l1 l2 : List Assignment)
    (h : List.Forall₂ (KeyAgrees k) l1 l2) : l1.map akey = l2.map akey := by
  induction h with
  | nil => rfl
  | cons hpair _ ih => simpa [hpair.1] using ih

theorem eqv_presentKey (k : Nat × Nat) (l1 l2 : List Assignment)
    (h : List.Forall₂ (KeyAgrees k) l1 l2) (k' : Nat × Nat) :
    presentKey l1 k' = presentKey l2 k' := by
  rw [presentKey_eq_keys_any, presentKey_eq_keys_any, eqv_map_akey k l1 l2 h]

theorem eqv_subAssign_self (a : Assignment) (rows : List Assignment) :
    List.Forall₂ (KeyAgrees (akey a)) rows (subAssign a rows) := by
  induction rows with
  | nil => exact List.Forall₂.nil
  | cons r t ih =>
    simp only [subAssign, List.map_cons] at ih ⊢
    refine List.Forall₂.cons ?_ ih
    by_cases hk : (akey r == akey a) = true
    · rw [if_pos hk]
      exact ⟨eq_of_beq hk, fun hne => absurd (eq_of_beq hk) hne⟩
    · rw [if_neg hk]
      exact keyAgrees_refl _ r

theorem subAssign_eq_of_eqv (b : Assignment) (k : Nat × Nat)
    (hk : akey b = k) (l1 l2 : List Assignment)
    (h : List.Forall₂ (KeyAgrees k) l1 l2) :
    subAssign b l1 = subAssign b l2 := by
  induction h with
  | nil => rfl
  | @cons r1 r2 t1 t2 hpair ht ih =>
    simp only [subAssign, List.map_cons] at ih ⊢
    refine congrArg₂ _ ?_ ih
    by_cases h1 : (akey r1 == akey b) = true
    · have h2 : (akey r2 == akey b) = true := by
        rw [← hpair.1]
        exact h1
      rw [if_pos h1, if_pos h2]
    · have h2 : ¬(akey r2 == akey b) = true := by
        rw [← hpair.1]
        exact h1
      rw [if_neg h1, if_neg h2]
      refine hpair.2 fun hcontra => ?_
      exact h1 (by simp [hcontra, hk])

theorem eqv_upsert (k : Nat × Nat) (b : Assignment) (l1 l2 : List Assignment)
    (h : List.Forall₂ (KeyAgrees k) l1 l2) :
    List.Forall₂ (KeyAgrees k) (upsertAssignment l1 b) (upsertAssignment l2 b) := by
  have hpres : presentKey l1 (akey b) = presentKey l2 (akey b) :=
    eqv_presentKey k l1 l2 h (akey b)
  rw [upsertAssignment_eq, upsertAssignment_eq, ← hpres]
  by_cases hp : presentKey l1 (akey b) = true
  · simp only [if_pos hp]
    clear hpres hp
    induction h with
    | nil => exact List.Forall₂.nil
    | @cons r1 r2 t1 t2 hpair ht ih =>
      simp only [subAssign, List.map_cons] at ih ⊢
      refine List.Forall₂.cons ?_ ih
      by_cases h1 : (akey r1 == akey b) = true
      · have h2 : (akey r2 == akey b) = true := by
          rw [← hpair.1]
          exact h1
        rw [if_pos h1, if_pos h2]
        exact keyAgrees_refl k b
      · have h2 : ¬(akey r2 == akey b) = true := by
          rw [← hpair.1]
          exact h1
        rw [if_neg h1, if_neg h2]
        exact hpair
  · simp only [if_neg hp]
    exact List.rel_append h
      (List.Forall₂.cons (keyAgrees_refl k b) List.Forall₂.nil)

theorem dbUpdate_eq_of_eqv (k : Nat × Nat) (incoming : List Assignment)
    (hmem : ∃ b ∈ incoming, akey b = k) (l1 l2 : List Assignment)
    (hpres : presentKey l1 k = true)
    (h : List.Forall₂ (KeyAgrees k) l1 l2) :
    dbUpdateAssignments l1 incoming = dbUpdateAssignments l2 incoming := by
  induction incoming generalizing l1 l2 with
  | nil =>
    obtain ⟨b, hb, _⟩ := hmem
    cases hb
  | cons c t ih =>
    by_cases hc : akey c = k
    · have hp1 : presentKey l1 (akey c) = true := by
        rw [hc]
        exact hpres
      have hp2 : presentKey l2 (akey c) = true := by
        rw [← eqv_presentKey k l1 l2 h]
        exact hp1
      rw [dbUpdateAssignments, dbUpdateAssignments, List.foldl_cons,
        List.foldl_cons, upsert_of_present l1 c hp1, upsert_of_present l2 c hp2,
        subAssign_eq_of_eqv c k hc l1 l2 h]
    · have hmem' : ∃ b ∈ t, akey b = k := by
        obtain ⟨b, hb, hbk⟩ := hmem
        rcases List.mem_cons.mp hb with rfl | hbt
        · exact absurd hbk hc
        · exact ⟨b, hbt, hbk⟩
      rw [dbUpdateAssignments, dbUpdateAssignments, List.foldl_cons,
        List.foldl_cons]
      exact ih hmem' (upsertAssignment l1 c) (upsertAssignment l2 c)
        (presentKey_upsert_mono l1 c k hpres)
        (eqv_upsert k c l1 l2 h)

/-- Core of claim C2: replaying the same upsert batch over the store it
already produced changes nothing. -/
theorem dbUpdate_idem (incoming rows : List Assignment) :
    dbUpdateAssignments (dbUpdateAssignments rows incoming) incoming
      = dbUpdateAssignments rows incoming := by
  induction incoming generalizing rows with
  | nil => rfl
  | cons a t ih =>
    simp only [dbUpdateAssignments, List.foldl_cons]
    set rows1 := upsertAssignment rows a with hrows1
    set R := List.foldl upsertAssignment rows1 t with hR
    have hpresR : presentKey R (akey a) = true := by
      rw [hR]
      exact presentKey_dbUpdate rows1 t (akey a) (presentKey_upsert_self rows a)
    rw [upsert_of_present R a hpresR]
    have ihR := ih rows1
    simp only [dbUpdateAssignments] at ihR
    rw [← hR] at ihR
    by_cases hdup : ∃ b ∈ t, akey b = akey a
    · have heqv := eqv_subAssign_self a R
      have hEq := dbUpdate_eq_of_eqv (akey a) t hdup R (subAssign a R)
        hpresR heqv
      simp only [dbUpdateAssignments] at hEq
      rw [← hEq]
      exact ihR
    · push_neg at hdup
      have halleq : ∀ r ∈ R, akey r = akey a → r = a := by
        rw [hR]
        exact alleq_dbUpdate rows1 t a hdup (alleq_upsert_self rows a)
      rw [subAssign_eq_self a R halleq]
      exact ihR

theorem uniqKeys_upsert (rows : List Assignment) (a : Assignment)
    (h : uniqKeys rows) : uniqKeys (upsertAssignment rows a) := by
  rw [upsertAssignment_eq]
  by_cases hp : presentKey rows (akey a) = true
  · rw [if_pos hp]
    rw [uniqKeys] at h ⊢
    rw [subAssign_map_akey]
    exact h
  · rw [if_neg hp]
    rw [uniqKeys] at h ⊢
    rw [List.map_append, List.pairwise_append]
    refine ⟨h, List.pairwise_singleton _ _, ?_⟩
    intro x hx y hy
    obtain ⟨r, hr, hrx⟩ := List.mem_map.mp hx
    have hya : y = akey a := by simpa using hy
    have hfalse : presentKey rows (akey a) = false := by simpa using hp
    rw [presentKey] at hfalse
    have hne := List.any_eq_false.mp hfalse r hr
    subst hrx hya
    simpa using hne

theorem uniqKeys_dbUpdate (rows incoming : List Assignment)
    (h : uniqKeys rows) : uniqKeys (dbUpdateAssignments rows incoming) := by
  induction incoming generalizing rows with
  | nil => exact h
  | cons c t ih => exact ih (upsertAssignment rows c) (uniqKeys_upsert rows c h)

/-- C2: `updateAssignments` is idempotent with respect to the persisted
assignment set — with a fixed remote descriptor state, a second run
leaves the store (rows, keys and identities) exactly as after the first,
and key-uniqueness of (CourseID, AssignmentID) is preserved, so no
duplicate rows are ever created. -/
theorem updateAssignments_idempotent (db : DB) (courseID : Nat)
    (fetched : Option (List Assignment)) :
    updateAssignments ((updateAssignments db courseID fetched).2) courseID fetched
      = updateAssignments db courseID fetched ∧
    (uniqKeys db.assignments →
      uniqKeys ((updateAssignments db courseID fetched).2).assignments) := by
  cases hc : getCourse db courseID with
  | none =>
    have h1 : updateAssignments db courseID fetched = (.error .notFound, db) := by
      rw [updateAssignments.eq_def, hc]
    refine ⟨?_, ?_⟩
    · rw [h1]
      exact h1
    · intro h
      rw [h1]
      exact h
  | some course =>
    cases fetched with
    | none =>
      have h1 : updateAssignments db courseID none
          = (.error .fetchOrDecodeError, db) := by
        rw [updateAssignments.eq_def, hc]
      refine ⟨?_, ?_⟩
      · rw [h1]
        exact h1
      · intro h
        rw [h1]
        exact h
    | some incoming =>
      have h1 : updateAssignments db courseID (some incoming)
          = (.ok (),
             { db with assignments := dbUpdateAssignments db.assignments incoming }) := by
        rw [updateAssignments.eq_def, hc]
      have hc2 : getCourse
          { db with assignments := dbUpdateAssignments db.assignments incoming }
          courseID = some course := hc
      refine ⟨?_, ?_⟩
      · rw [h1]
        rw [updateAssignments.eq_def, hc2]
        simp [dbUpdate_idem]
      · intro h
        rw [h1]
        exact uniqKeys_dbUpdate db.assignments incoming h

/-- Store and batch for the C2 witness: one existing assignment that the
batch updates in place, plus one new assignment that it inserts. -/
def c2DB : DB :=
  { courses := [⟨1, "org"⟩]
    assignments := [⟨1, 1, "Lab 1", "go", "01-09-2024T23:59:00", 1, false, false, 0⟩]
    benchmarks := []
    criteria := []
    submissions := []
    reviews := []
    nextBenchmarkID := 1
    nextCriterionID := 1
    nextReviewID := 1 }

/-- Incoming parsed descriptor batch for the C2 witness. -/
def c2Fetched : List Assignment :=
  [⟨1, 1, "Lab 1 v2", "go", "05-09-2024T23:59:00", 1, true, false, 0⟩,
   ⟨2, 1, "Lab 2", "go", "15-10-2024T12:00:00", 2, false, false, 0⟩]

/-- Witness for C2 at a concrete store and batch. -/
theorem updateAssignments_idempotent_witness :
    (updateAssignments ((updateAssignments c2DB 1 (some c2Fetched)).2) 1
        (some c2Fetched)
      = updateAssignments c2DB 1 (some c2Fetched)) ∧
    uniqKeys c2DB.assignments ∧
    uniqKeys ((updateAssignments c2DB 1 (some c2Fetched)).2).assignments :=
  ⟨(updateAssignments_idempotent c2DB 1 (some c2Fetched)).1,
   by unfold uniqKeys
      decide,
   (updateAssignments_idempotent c2DB 1 (some c2Fetched)).2
     (by unfold uniqKeys
         decide)⟩

/-- C8: `getAssignments` is a read-only compatibility shim — the returned
assignments carry the FixDeadline-normalized deadline values (with every
other field as stored), while the persisted store, legacy malformed
deadlines included, is unchanged by the call. -/
theorem getAssignments_normalizes_on_read (fix : String → String) (db : DB)
    (courseID : Nat) :
    (getAssignments fix db courseID).2 = db ∧
    ∃ res, (getAssignments fix db courseID).1 = .ok res ∧
      res.map (fun a => a.deadline)
        = ((db.assignments.filter fun a => a.courseID == courseID).map
            fun a => fix a.deadline) ∧
      res.map (fun a => { a with deadline := "" })
        = ((db.assignments.filter fun a => a.courseID == courseID).map
            fun a => { a with deadline := "" }) := by
  refine ⟨rfl, _, rfl, ?_, ?_⟩ <;>
    simp [getAssignments, List.map_map, Function.comp]

/-- C10: `createReview` enforces the per-assignment reviewer cap — a
submission already carrying at least `Reviewers` reviews yields an error
and an untouched store; below the cap the review is persisted with
`Edited` stamped with the formatted current time. -/
theorem createReview_enforces_reviewer_cap (db : DB) (query : Review)
    (now : String) (submission : Submission) (reviews : List Review)
    (assignment : Assignment)
    (hs : getSubmissionWithReviews db query.submissionID = some (submission, reviews))
    (ha : getAssignmentByID db submission.assignmentID = some assignment) :
    (reviews.length ≥ assignment.reviewers →
      createReview db query now = (.error .tooManyReviews, db)) ∧
    (reviews.length < assignment.reviewers →
      ∃ stored,
        createReview db query now
          = (.ok stored,
             { db with reviews := db.reviews ++ [stored],
                       nextReviewID := db.nextReviewID + 1 }) ∧
        stored.edited = now ∧ stored.submissionID = query.submissionID) := by
  constructor
  · intro hge
    simp [createReview, hs, ha, if_pos hge]
  · intro hlt
    refine ⟨{ query with edited := now, id := db.nextReviewID }, ?_, rfl, rfl⟩
    simp [createReview, hs, ha, Nat.not_le.mpr hlt, createReviewDB]

/-- Store for the C10 witness: one submission (id 1) of assignment 2 with
a reviewer cap of 1 and no reviews yet. -/
def c10DB : DB :=
  { courses := [⟨2, "org"⟩]
    assignments := [⟨2, 2, "Lab 2", "go", "01-09-2024T23:59:00", 2, false, false, 1⟩]
    benchmarks := []
    criteria := []
    submissions := [⟨1, 2⟩]
    reviews := []
    nextBenchmarkID := 1
    nextCriterionID := 1
    nextReviewID := 1 }

/-- Witness for C10 at a concrete store, below the cap. -/
theorem createReview_enforces_reviewer_cap_witness :
    getSubmissionWithReviews c10DB 1 = some (⟨1, 2⟩, []) ∧
    getAssignmentByID c10DB 2
      = some ⟨2, 2, "Lab 2", "go", "01-09-2024T23:59:00", 2, false, false, 1⟩ ∧
    (([] : List Review).length ≥ 1 →
      createReview c10DB ⟨0, 1, ""⟩ "05 Oct 12:00"
        = (.error .tooManyReviews, c10DB)) ∧
    (([] : List Review).length < 1 →
      ∃ stored,
        createReview c10DB ⟨0, 1, ""⟩ "05 Oct 12:00"
          = (.ok stored,
             { c10DB with reviews := c10DB.reviews ++ [stored],
                          nextReviewID := c10DB.nextReviewID + 1 }) ∧
        stored.edited = "05 Oct 12:00" ∧ stored.submissionID = 1) :=
  ⟨rfl, rfl,
   createReview_enforces_reviewer_cap c10DB ⟨0, 1, ""⟩ "05 Oct 12:00"
     ⟨1, 2⟩ [] ⟨2, 2, "Lab 2", "go", "01-09-2024T23:59:00", 2, false, false, 1⟩
     rfl rfl⟩

theorem foldl_deleteCriterion_spec (cs : List GradingCriterion) (db : DB) :
    cs.foldl deleteCriterionDB db
      = { db with
          criteria := db.criteria.filter fun x => cs.all fun c0 => x.id != c0.id } := by
  induction cs generalizing db with
  | nil => simp
  | cons c0 cs ih =>
    rw [List.foldl_cons, ih]
    simp only [deleteCriterionDB]
    congr 1
    rw [List.filter_filter]
    refine List.filter_congr fun x hx => ?_
    simp [Bool.and_comm]

theorem foldl_deleteBenchmark_spec (gbms : List GradingBenchmark) (db : DB) :
    gbms.foldl
      (fun db bm => deleteBenchmarkDB (bm.criteria.foldl deleteCriterionDB db) bm) db
      = { db with
          benchmarks := db.benchmarks.filter fun b =>
            gbms.all fun bm => b.id != bm.id,
          criteria := db.criteria.filter fun x =>
            gbms.all fun bm => bm.criteria.all fun c0 => x.id != c0.id } := by
  induction gbms generalizing db with
  | nil => simp
  | cons bm rest ih =>
    rw [List.foldl_cons, ih, foldl_deleteCriterion_spec]
    simp only [deleteBenchmarkDB]
    congr 1
    · rw [List.filter_filter]
      refine List.filter_congr fun b hb => ?_
      simp [Bool.and_comm]
    · rw [List.filter_filter]
      refine List.filter_congr fun x hx => ?_
      simp [Bool.and_comm]

theorem foldl_deleteReviews_spec (subs : List Submission) (db : DB) :
    subs.foldl (fun db s => deleteReviewsBySubmission db s.id) db
      = { db with
          reviews := db.reviews.filter fun r =>
            subs.all fun s => r.submissionID != s.id } := by
  induction subs generalizing db with
  | nil => simp
  | cons s rest ih =>
    rw [List.foldl_cons, ih]
    simp only [deleteReviewsBySubmission]
    congr 1
    rw [List.filter_filter]
    refine List.filter_congr fun r hr => ?_
    simp [Bool.and_comm]

/-- Full characterization of `removeOldCriteriaAndReviews`: the listed
benchmarks and their listed criteria are deleted by id, and the reviews
of the assignment's submissions are deleted; nothing else changes. -/
theorem removeOld_spec (db : DB) (aID : Nat) (gbms : List GradingBenchmark) :
    removeOldCriteriaAndReviews db aID gbms
      = { db with
          benchmarks := db.benchmarks.filter fun b =>
            gbms.all fun bm => b.id != bm.id,
          criteria := db.criteria.filter fun x =>
            gbms.all fun bm => bm.criteria.all fun c0 => x.id != c0.id,
          reviews := db.reviews.filter fun r =>
            (db.submissions.filter fun s => s.assignmentID == aID).all fun s =>
              r.submissionID != s.id } := by
  rw [removeOldCriteriaAndReviews, foldl_deleteBenchmark_spec,
    getSubmissionsByAssignment, foldl_deleteReviews_spec]

theorem insertCriteria_spec (cs : List GradingCriterion) (db : DB) (bmID : Nat) :
    insertCriteria db bmID cs
      = { db with
          criteria := db.criteria ++ tagCriteria db.nextCriterionID bmID cs,
          nextCriterionID := db.nextCriterionID + cs.length } := by
  induction cs generalizing db with
  | nil => simp [insertCriteria, tagCriteria]
  | cons c cs ih =>
    rw [insertCriteria, ih]
    simp only [createCriterionDB]
    congr 1
    · rw [tagCriteria, ← List.append_cons]
    · rw [List.length_cons]
      omega

theorem insertBenchmarks_spec (bms : List GradingBenchmark) (db : DB) (aID : Nat) :
    insertBenchmarks db aID bms
      = { db with
          benchmarks := db.benchmarks ++ tagBenchmarks db.nextBenchmarkID aID bms,
          criteria := db.criteria
            ++ tagAllCriteria db.nextCriterionID db.nextBenchmarkID bms,
          nextBenchmarkID := db.nextBenchmarkID + bms.length,
          nextCriterionID := db.nextCriterionID + totalCriteria bms } := by
  induction bms generalizing db with
  | nil => simp [insertBenchmarks, tagBenchmarks, tagAllCriteria, totalCriteria]
  | cons bm rest ih =>
    rw [insertBenchmarks, insertCriteria_spec, ih]
    simp only [createBenchmarkDB]
    simp only [tagBenchmarks, tagAllCriteria, totalCriteria]
    congr 1
    · rw [← List.append_cons]
    · rw [List.append_assoc]
    · rw [List.length_cons]
      omega
    · omega

theorem tagCriteria_mem (cs : List GradingCriterion) (cStart bmID : Nat) :
    ∀ c ∈ tagCriteria cStart bmID cs, c.benchmarkID = bmID ∧ cStart ≤ c.id := by
  induction cs generalizing cStart with
  | nil => intro c hc; cases hc
  | cons c0 cs ih =>
    intro c hc
    rw [tagCriteria] at hc
    rcases List.mem_cons.mp hc with rfl | ht
    · exact ⟨rfl, Nat.le_refl _⟩
    · obtain ⟨h1, h2⟩ := ih (cStart + 1) c ht
      exact ⟨h1, Nat.le_of_succ_le h2⟩

theorem tagAllCriteria_mem (bms : List GradingBenchmark) (cStart bStart : Nat) :
    ∀ c ∈ tagAllCriteria cStart bStart bms,
      bStart ≤ c.benchmarkID ∧ cStart ≤ c.id := by
  induction bms generalizing cStart bStart with
  | nil => intro c hc; cases hc
  | cons bm rest ih =>
    intro c hc
    rw [tagAllCriteria] at hc
    rcases List.mem_append.mp hc with hhead | htail
    · obtain ⟨h1, h2⟩ := tagCriteria_mem bm.criteria cStart bStart c hhead
      exact ⟨Nat.le_of_eq h1.symm, h2⟩
    · obtain ⟨h1, h2⟩ := ih (cStart + bm.criteria.length) (bStart + 1) c htail
      exact ⟨Nat.le_of_succ_le h1, Nat.le_trans (Nat.le_add_right _ _) h2⟩

theorem tagBenchmarks_mem (bms : List GradingBenchmark) (bStart aID : Nat) :
    ∀ b ∈ tagBenchmarks bStart aID bms, b.assignmentID = aID := by
  induction bms generalizing bStart with
  | nil => intro b hb; cases hb
  | cons bm rest ih =>
    intro b hb
    rw [tagBenchmarks] at hb
    rcases List.mem_cons.mp hb with rfl | ht
    · rfl
    · exact ih (bStart + 1) b ht

theorem tagCriteria_filter_self (cs : List GradingCriterion) (cStart bmID : Nat) :
    (tagCriteria cStart bmID cs).filter (fun c => c.benchmarkID == bmID)
      = tagCriteria cStart bmID cs := by
  rw [List.filter_eq_self]
  intro c hc
  simp [(tagCriteria_mem cs cStart bmID c hc).1]

theorem tagCriteria_map_description (cs : List GradingCriterion)
    (cStart bmID : Nat) :
    (tagCriteria cStart bmID cs).map (fun c => c.description)
      = cs.map fun c => c.description := by
  induction cs generalizing cStart with
  | nil => rfl
  | cons c0 cs ih =>
    rw [tagCriteria, List.map_cons, List.map_cons, ih]

/-- Assembled rubric of the freshly inserted benchmark rows: filtering the
new criterion rows by each new benchmark id recovers exactly the parsed
rubric content, provided every pre-existing criterion row points below
the first fresh benchmark id. -/
theorem tag_assemble (bms : List GradingBenchmark) (aID bStart cStart : Nat)
    (extraC : List GradingCriterion)
    (hextra : ∀ c ∈ extraC, c.benchmarkID < bStart) :
    ((tagBenchmarks bStart aID bms).map fun b =>
        { b with criteria :=
            (extraC ++ tagAllCriteria cStart bStart bms).filter fun c =>
              c.benchmarkID == b.id }).map normBenchmark
      = bms.map normBenchmark := by
  induction bms generalizing bStart cStart extraC with
  | nil => rfl
  | cons bm rest ih =>
    rw [tagBenchmarks, tagAllCriteria, List.map_cons, List.map_cons,
      List.map_cons]
    refine congrArg₂ _ ?_ ?_
    · have hE : extraC.filter (fun c => c.benchmarkID == bStart) = [] := by
        rw [List.filter_eq_nil_iff]
        intro c hc
        have := hextra c hc
        simp only [beq_iff_eq]
        omega
      have hT : (tagAllCriteria (cStart + bm.criteria.length) (bStart + 1)
            rest).filter (fun c => c.benchmarkID == bStart) = [] := by
        rw [List.filter_eq_nil_iff]
        intro c hc
        have := (tagAllCriteria_mem rest _ _ c hc).1
        simp only [beq_iff_eq]
        omega
      simp only [List.filter_append, hE, hT, List.nil_append, List.append_nil,
        tagCriteria_filter_self]
      rw [normBenchmark, normBenchmark]
      simp only [tagCriteria_map_description]
    · have hmix : ∀ c ∈ extraC ++ tagCriteria cStart bStart bm.criteria,
          c.benchmarkID < bStart + 1 := by
        intro c hc
        rcases List.mem_append.mp hc with h1 | h2
        · exact Nat.lt_succ_of_lt (hextra c h1)
        · rw [(tagCriteria_mem bm.criteria cStart bStart c h2).1]
          exact Nat.lt_succ_self bStart
      have := ih (bStart + 1) (cStart + bm.criteria.length)
        (extraC ++ tagCriteria cStart bStart bm.criteria) hmix
      rw [← this]
      simp [List.append_assoc]

/-- Heart of claim C1: deleting the fetched rubric and inserting the
parsed one yields a store in which the assignment's rubric content is
exactly the parsed one, no old criterion id survives, and no review of
the assignment's submissions survives. -/
theorem loadCriteria_core (db : DB) (aID : Nat) (bms : List GradingBenchmark)
    (hwf : WF db) :
    ((benchmarksFor
        (insertBenchmarks
          (removeOldCriteriaAndReviews db aID (benchmarksFor db aID)) aID bms)
        aID).map normBenchmark = bms.map normBenchmark) ∧
    (∀ b ∈ db.benchmarks, b.assignmentID = aID →
      ∀ c ∈ db.criteria, c.benchmarkID = b.id →
        ∀ c' ∈ (insertBenchmarks
            (removeOldCriteriaAndReviews db aID (benchmarksFor db aID)) aID
            bms).criteria, c'.id ≠ c.id) ∧
    (∀ s ∈ db.submissions, s.assignmentID = aID →
      ∀ r ∈ (insertBenchmarks
          (removeOldCriteriaAndReviews db aID (benchmarksFor db aID)) aID
          bms).reviews, r.submissionID ≠ s.id) := by
  obtain ⟨hWFb, hWFc, hWFcb⟩ := hwf
  rw [removeOld_spec, insertBenchmarks_spec]
  refine ⟨?_, ?_, ?_⟩
  · rw [benchmarksFor]
    simp only [List.filter_append]
    have hold : ((db.benchmarks.filter fun b =>
          (benchmarksFor db aID).all fun bm => b.id != bm.id).filter
            fun b => b.assignmentID == aID) = [] := by
      rw [List.filter_eq_nil_iff]
      intro b hb
      obtain ⟨hbmem, hbpred⟩ := List.mem_filter.mp hb
      intro hbeq
      have hmem : ({ b with criteria :=
            db.criteria.filter fun c => c.benchmarkID == b.id } :
            GradingBenchmark) ∈ benchmarksFor db aID := by
        rw [benchmarksFor]
        exact List.mem_map.mpr ⟨b, List.mem_filter.mpr ⟨hbmem, hbeq⟩, rfl⟩
      have := List.all_eq_true.mp hbpred _ hmem
      simp at this
    have htag : ((tagBenchmarks db.nextBenchmarkID aID bms).filter
          fun b => b.assignmentID == aID)
        = tagBenchmarks db.nextBenchmarkID aID bms := by
      rw [List.filter_eq_self]
      intro b hb
      simp [tagBenchmarks_mem bms db.nextBenchmarkID aID b hb]
    rw [hold, htag, List.nil_append]
    simp only [← List.filter_append]
    exact tag_assemble bms aID db.nextBenchmarkID db.nextCriterionID _
      fun c hc => hWFcb c (List.mem_filter.mp hc).1
  · intro b hb hbaID c hcmem hcb c' hc'
    rcases List.mem_append.mp hc' with h1 | h2
    · obtain ⟨h1mem, h1pred⟩ := List.mem_filter.mp h1
      have hbm : ({ b with criteria :=
            db.criteria.filter fun cc => cc.benchmarkID == b.id } :
            GradingBenchmark) ∈ benchmarksFor db aID := by
        rw [benchmarksFor]
        refine List.mem_map.mpr ⟨b, List.mem_filter.mpr ⟨hb, ?_⟩, rfl⟩
        simp [hbaID]
      have hcin : c ∈ db.criteria.filter fun cc => cc.benchmarkID == b.id :=
        List.mem_filter.mpr ⟨hcmem, by simp [hcb]⟩
      have hall := List.all_eq_true.mp h1pred _ hbm
      have := List.all_eq_true.mp hall c hcin
      simpa using this
    · have h2id := (tagAllCriteria_mem bms db.nextCriterionID
        db.nextBenchmarkID c' h2).2
      have hcid := hWFc c hcmem
      omega
  · intro s hs hsa r hr
    obtain ⟨hrmem, hrpred⟩ := List.mem_filter.mp hr
    have hsin : s ∈ db.submissions.filter fun s => s.assignmentID == aID :=
      List.mem_filter.mpr ⟨hs, by simp [hsa]⟩
    have := List.all_eq_true.mp hrpred s hsin
    simpa using this

/-- C1: for an assignment that already has persisted grading benchmarks,
a successful `loadCriteria` import fully replaces the rubric — the
benchmarks and criteria persisted for that assignment afterwards are
exactly the newly parsed ones (same count and content, benchmark by
benchmark), no criterion of the old rubric survives by id, and no review
of the assignment's submissions survives. -/
theorem loadCriteria_replaces_rubric (db db' : DB) (courseID assignmentID : Nat)
    (bms : List GradingBenchmark)
    (hwf : WF db)
    (hnon : benchmarksFor db assignmentID ≠ [])
    (hrun : loadCriteria db courseID assignmentID (some bms) = (.ok (), db')) :
    ((benchmarksFor db' assignmentID).map normBenchmark
        = bms.map normBenchmark) ∧
    (∀ b ∈ db.benchmarks, b.assignmentID = assignmentID →
      ∀ c ∈ db.criteria, c.benchmarkID = b.id →
        ∀ c' ∈ db'.criteria, c'.id ≠ c.id) ∧
    (∀ s ∈ db.submissions, s.assignmentID = assignmentID →
      ∀ r ∈ db'.reviews, r.submissionID ≠ s.id) := by
  rw [loadCriteria.eq_def] at hrun
  cases ha : getAssignmentQ db assignmentID courseID with
  | none =>
    rw [ha] at hrun
    simp at hrun
  | some a =>
    rw [ha] at hrun
    dsimp only at hrun
    have haid : a.id = assignmentID := by
      rw [getAssignmentQ] at ha
      have hp := List.find?_some ha
      simp only [Bool.and_eq_true, beq_iff_eq] at hp
      exact hp.1
    cases hc : getCourse db a.courseID with
    | none =>
      rw [hc] at hrun
      simp at hrun
    | some course =>
      rw [hc] at hrun
      dsimp only at hrun
      rw [haid] at hrun
      have hpos : (benchmarksFor db assignmentID).length > 0 :=
        List.length_pos.mpr hnon
      rw [if_pos hpos] at hrun
      rw [Prod.mk.injEq] at hrun
      have hdb' := hrun.2
      subst hdb'
      exact loadCriteria_core db assignmentID bms hwf

/-- Store for the C1 witness: assignment 1 of course 1 with one persisted
benchmark carrying one criterion, one submission and one review of it. -/
def c1DB : DB :=
  { courses := [⟨1, "org"⟩]
    assignments := [⟨1, 1, "Lab 1", "go", "01-09-2024T23:59:00", 1, false, false, 0⟩]
    benchmarks := [⟨1, 1, "Old BM", []⟩]
    criteria := [⟨1, 1, "old criterion"⟩]
    submissions := [⟨5, 1⟩]
    reviews := [⟨9, 5, "old"⟩]
    nextBenchmarkID := 2
    nextCriterionID := 2
    nextReviewID := 10 }

/-- Parsed `criteria.json` for the C1 witness: one new benchmark with two
criteria. -/
def c1Bms : List GradingBenchmark :=
  [⟨0, 0, "New BM", [⟨0, 0, "crit A"⟩, ⟨0, 0, "crit B"⟩]⟩]

/-- The store after the witness import: the old benchmark, its criterion
and the review are gone; the new benchmark and criteria are persisted
under fresh ids. -/
def c1DBAfter : DB :=
  { courses := [⟨1, "org"⟩]
    assignments := [⟨1, 1, "Lab 1", "go", "01-09-2024T23:59:00", 1, false, false, 0⟩]
    benchmarks := [⟨2, 1, "New BM", []⟩]
    criteria := [⟨2, 2, "crit A"⟩, ⟨3, 2, "crit B"⟩]
    submissions := [⟨5, 1⟩]
    reviews := []
    nextBenchmarkID := 3
    nextCriterionID := 4
    nextReviewID := 10 }

/-- Witness for C1 at the concrete store. -/
theorem loadCriteria_replaces_rubric_witness :
    WF c1DB ∧ benchmarksFor c1DB 1 ≠ [] ∧
    loadCriteria c1DB 1 1 (some c1Bms) = (.ok (), c1DBAfter) ∧
    (((benchmarksFor c1DBAfter 1).map normBenchmark
        = c1Bms.map normBenchmark) ∧
     (∀ b ∈ c1DB.benchmarks, b.assignmentID = 1 →
        ∀ c ∈ c1DB.criteria, c.benchmarkID = b.id →
          ∀ c' ∈ c1DBAfter.criteria, c'.id ≠ c.id) ∧
     (∀ s ∈ c1DB.submissions, s.assignmentID = 1 →
        ∀ r ∈ c1DBAfter.reviews, r.submissionID ≠ s.id)) :=
  ⟨by unfold WF
      decide,
   by decide, rfl,
   loadCriteria_replaces_rubric c1DB c1DBAfter 1 1 c1Bms
     (by unfold WF
         decide)
     (by decide) rfl⟩

end Web

/-! ## Service facade error mapping (`src/web/autograder_service.go`) -/

namespace Facade

/-- gRPC status codes used by the facade. -/
inductive Code where
  | ok
  | notFound
  | permissionDenied
  | invalidArgument
  | alreadyExists
  | internal
  | unimplemented
deriving Repr, DecidableEq

/-- A `status.Status` error: a code with an externally visible message. -/
structure StatusError where
  code : Code
  msg : String
deriving Repr, DecidableEq

/-- A Go error value as seen at the facade: either already a gRPC status
error, or an unclassified internal error carrying its own text
(`status.FromError` succeeds exactly on the former). -/
inductive GoError where
  | status (e : StatusError)
  | plain (msg : String)
deriving Repr, DecidableEq

/-- The externally visible text of an error. -/
def errorText : GoError → String
  | .status e => e.msg
  | .plain msg => msg

/-- The fixed generic message of the internal category
(autograder_service.go line 253). -/
def internalMessage : String := "server error; check server logs for details"

/-- Go `status.FromError(err)`: whether the error already is a status
error. -/
def isStatusError : GoError → Bool
  | .status _ => true
  | .plain _ => false

/-- Go struct `pb.User` (identity only). -/
structure User where
  id : Nat
deriving Repr, DecidableEq

/-- Go struct `pb.Group` (identity only). -/
structure Group where
  id : Nat
deriving Repr, DecidableEq

/-- Embedding of `AutograderService.CreateGroup` (autograder_service.go
lines 242-259) as a function of the current-user lookup and the
`createGroup` component result: a missing user maps to NotFound; a
component error that is not already a status error is replaced by the
generic internal status. -/
def CreateGroupRPC (currentUser : Option User)
    (componentResult : Except GoError Group) : Except GoError Group :=
  match currentUser with
  | none => .error (.status ⟨.notFound, "failed to get current user"⟩)
  | some _ =>
    match componentResult with
    | .ok group => .ok group
    | .error e =>
      if isStatusError e then .error e
      else .error (.status ⟨.internal, internalMessage⟩)

/-- Embedding of `AutograderService.UpdateGroup` (autograder_service.go
lines 262-281) as a function of the auth lookup, the teacher predicate
and the `updateGroup` component result: auth errors pass through, a
non-teacher maps to PermissionDenied, and a component error that is not
already a status error is replaced by the generic internal status. -/
def UpdateGroupRPC (auth : Except GoError User) (isTeacher : User → Bool)
    (componentResult : Except GoError Unit) : Except GoError Unit :=
  match auth with
  | .error e => .error e
  | .ok usr =>
    if !isTeacher usr then
      .error (.status ⟨.permissionDenied, "only teachers can update groups"⟩)
    else
      match componentResult with
      | .ok _ => .ok ()
      | .error e =>
        if isStatusError e then .error e
        else .error (.status ⟨.internal, internalMessage⟩)

/-- Embedding of `AutograderService.CreateEnrollment`
(autograder_service.go lines 159-161): the component's result is returned
to the caller directly, with no error translation. -/
def CreateEnrollmentRPC (componentResult : Except GoError Unit) :
    Except GoError Unit :=
  componentResult

/-- Embedding of `AutograderService.GetAssignments` (autograder_service.go
lines 180-182): `ListAssignments`' result is returned directly, with no
error translation. -/
def GetAssignmentsRPC (componentResult : Except GoError (List Web.Assignment)) :
    Except GoError (List Web.Assignment) :=
  componentResult

/-- C7 counterexample: `CreateEnrollment` — a facade operation — returns
an unclassified internal failure verbatim: the caller-visible error
carries the internal error's own text, which differs from the fixed
generic internal message, so the claim fails as stated. -/
theorem facade_leaks_internal_text :
    CreateEnrollmentRPC (.error (.plain "pq: database is locked"))
      = .error (.plain "pq: database is locked") ∧
    errorText (.plain "pq: database is locked") ≠ internalMessage :=
  ⟨rfl, by decide⟩

/-- C7 (amended): the generic-internal translation holds for `CreateGroup`
(and `UpdateGroup`, which shares the same mapping), whose unclassified
failures surface only the fixed internal-category message; but
`GetAssignments` and `CreateEnrollment` return the component's error to
the caller unchanged, internal text included, so the property does not
extend to every facade operation. -/
theorem facade_internal_mapping (u : User) (msg : String) :
    CreateGroupRPC (some u) (.error (.plain msg))
      = .error (.status ⟨.internal, internalMessage⟩) ∧
    UpdateGroupRPC (.ok u) (fun _ => true) (.error (.plain msg))
      = .error (.status ⟨.internal, internalMessage⟩) ∧
    errorText (.status ⟨.internal, internalMessage⟩) = internalMessage ∧
    CreateEnrollmentRPC (.error (.plain msg)) = .error (.plain msg) ∧
    GetAssignmentsRPC (.error (.plain msg)) = .error (.plain msg) :=
  ⟨rfl, rfl, rfl, rfl, rfl⟩

end Facade

/-! ## GitLab SCM client (`src/unnamed/part_002`, package `scm`) -/

namespace Scm

/-- GitLab visibility levels (`gitlab.VisibilityLevelValue`). -/
inductive VisibilityLevelValue where
  | privateVisibility
  | internalVisibility
  | publicVisibility
deriving Repr, DecidableEq

/-- Embedding of `getVisibilityLevel` (part_002 lines 140-145). -/
def getVisibilityLevel (priv : Bool) : VisibilityLevelValue :=
  if priv then .privateVisibility else .publicVisibility

/-- Go struct `scm.CreateDirectoryOptions`. -/
structure CreateDirectoryOptions where
  name : String
  path : String
deriving Repr, DecidableEq

/-- The `gitlab.CreateGroupOptions` request body sent to the provider. -/
structure CreateGroupOptions where
  name : String
  path : String
  visibilityLevel : VisibilityLevelValue
deriving Repr, DecidableEq

/-- Embedding of the request construction in `GitlabSCM.CreateDirectory`
(part_002 lines 63-68): the remote group is requested with
`getVisibilityLevel(false)`. -/
def createDirectoryRequest (opt : CreateDirectoryOptions) : CreateGroupOptions :=
  { name := opt.name, path := opt.path, visibilityLevel := getVisibilityLevel false }

/-- C9: every `CreateDirectory` call requests the remote group with
public visibility — the private level is never requested by directory
creation. -/
theorem createDirectory_requests_public (opt : CreateDirectoryOptions) :
    (createDirectoryRequest opt).visibilityLevel = .publicVisibility ∧
    (createDirectoryRequest opt).visibilityLevel ≠ .privateVisibility :=
  ⟨rfl, by simp [createDirectoryRequest, getVisibilityLevel]⟩

end Scm

end Quickfeed
